import Mathlib

/-!
Verification of the BGV world-country database lookup example
(`BGV_world_country_db_lookup.cpp`).

The program performs a privacy-preserving exact-match key/value lookup over
an encrypted database.  The homomorphic ciphertext capability is external
(helayers); its contract (spec section 4.1) is that every operation is exact
slot-wise modular arithmetic on vectors of `slotCount` residues mod the
plaintext modulus `p`.  We therefore embed a ciphertext by its decoded
content: a function `Fin n → ZMod p`, and each helayers call by the exact
slot-wise operation the contract assigns to it.  The example's own code
(`pow`, the per-record mask computation in `run`, the aggregation and decode
in `run`, and `read_csv`) is translated statement by statement below.
-/

namespace CountryLookup

/-- The decoded content of a ciphertext: `n` slots of residues mod `p`
(spec section 4.1: a ciphertext is a slot vector of modular integers). -/
abbrev SlotVec (p n : ℕ) := Fin n → ZMod p

variable {p n : ℕ}

/-- Modelled from the spec: `CTile::add` — slot-wise modular addition
(spec section 4.1, external Ciphertext Capability). -/
def vadd (a b : SlotVec p n) : SlotVec p n := fun i => a i + b i

/-- Modelled from the spec: `CTile::sub` — slot-wise modular subtraction
(spec section 4.1, external Ciphertext Capability). -/
def vsub (a b : SlotVec p n) : SlotVec p n := fun i => a i - b i

/-- Modelled from the spec: `CTile::multiply` — slot-wise modular
multiplication (spec section 4.1, external Ciphertext Capability). -/
def vmul (a b : SlotVec p n) : SlotVec p n := fun i => a i * b i

/-- Modelled from the spec: `CTile::negate` — slot-wise modular negation
(spec section 4.1, external Ciphertext Capability). -/
def vneg (a : SlotVec p n) : SlotVec p n := fun i => - a i

/-- Modelled from the spec: `CTile::square` — slot-wise modular squaring
(spec section 4.1, external Ciphertext Capability). -/
def vsquare (a : SlotVec p n) : SlotVec p n := fun i => a i * a i

/-- The all-zero slot vector (freshly constructed ciphertext content). -/
def vzero : SlotVec p n := fun _ => 0

/-- The all-ones slot vector, the encryption of `vector<int>(slotCount, 1)`
built at line 289 of the source. -/
def vones : SlotVec p n := fun _ => 1

/-- Modelled from the spec: `CTile::rotate(-r)` for `r ≥ 0` — cyclic shift
left by `r` slots, so slot `i` of the result holds slot `(i + r) mod n` of
the input (spec section 4.1: "negative = shift left"). -/
def rotLeft (a : SlotVec p n) (r : ℕ) : SlotVec p n :=
  fun i => a ⟨(i.val + r) % n, Nat.mod_lt _ i.pos⟩

/-- The loop of `pow` (source lines 149-163), fuel-indexed so that it is
structurally recursive.  State: `ctile` (the running base `x`), `y` (the
accumulator), `yIsOne` (whether `y` is still the lazy identity), `degree`.
`fuel = degree` suffices because the degree at least halves each round. -/
def powGo (p n : ℕ) : ℕ → SlotVec p n → SlotVec p n → Bool → ℕ → SlotVec p n
  | 0, ctile, y, yIsOne, _ =>
      if yIsOne then ctile else vmul ctile y
  | fuel + 1, ctile, y, yIsOne, degree =>
      if 1 < degree then
        if degree % 2 = 0 then
          powGo p n fuel (vsquare ctile) y yIsOne (degree / 2)
        else
          powGo p n fuel (vsquare ctile)
            (if yIsOne then ctile else vmul y ctile) false ((degree - 1) / 2)
      else
        if yIsOne then ctile else vmul ctile y

/-- `pow(he, ctile, degree)` (source lines 143-166): square-and-multiply
exponentiation of a ciphertext.  The fresh `CTile y(he)` is embedded as the
all-zero vector; it is never read while `yIsOne` is true. -/
def powC (ctile : SlotVec p n) (degree : ℕ) : SlotVec p n :=
  powGo p n degree ctile vzero true degree

lemma vmul_apply (a b : SlotVec p n) (i : Fin n) : vmul a b i = a i * b i := rfl

lemma vsquare_apply (a : SlotVec p n) (i : Fin n) : vsquare a i = a i * a i := rfl

/-- Loop invariant of `pow`: with enough fuel, the loop computes
`ctile ^ degree` times the accumulator, slot-wise. -/
lemma powGo_spec (fuel : ℕ) :
    ∀ degree, 1 ≤ degree → degree ≤ 2 ^ fuel →
    ∀ (c y : SlotVec p n) (yIsOne : Bool) (i : Fin n),
      powGo p n fuel c y yIsOne degree i =
        c i ^ degree * (if yIsOne then 1 else y i) := by
  induction fuel with
  | zero =>
      intro degree h1 h2 c y yIsOne i
      have hdeg : degree = 1 := by simpa using le_antisymm h2 h1
      subst hdeg
      cases yIsOne <;> simp [powGo, vmul_apply]
  | succ fuel ih =>
      intro degree h1 h2 c y yIsOne i
      by_cases hgt : 1 < degree
      · by_cases heven : degree % 2 = 0
        · have hlow : 1 ≤ degree / 2 := by omega
          have hhigh : degree / 2 ≤ 2 ^ fuel := by
            have : (2:ℕ) ^ (fuel + 1) = 2 ^ fuel * 2 := by ring
            omega
          have := ih (degree / 2) hlow hhigh (vsquare c) y yIsOne i
          simp only [powGo, if_pos hgt, if_pos heven]
          rw [this, vsquare_apply, ← pow_two, ← pow_mul]
          congr 2
          omega
        · have hlow : 1 ≤ (degree - 1) / 2 := by omega
          have hhigh : (degree - 1) / 2 ≤ 2 ^ fuel := by
            have : (2:ℕ) ^ (fuel + 1) = 2 ^ fuel * 2 := by ring
            omega
          have hrec := ih ((degree - 1) / 2) hlow hhigh (vsquare c)
            (if yIsOne then c else vmul y c) false i
          simp only [powGo, if_pos hgt, if_neg heven]
          rw [hrec, vsquare_apply, ← pow_two, ← pow_mul]
          have hdeg : 2 * ((degree - 1) / 2) + 1 = degree := by omega
          cases yIsOne with
          | true =>
              show c i ^ (2 * ((degree - 1) / 2)) * c i = c i ^ degree * 1
              rw [mul_one, ← pow_succ, hdeg]
          | false =>
              show c i ^ (2 * ((degree - 1) / 2)) * (vmul y c) i
                  = c i ^ degree * y i
              rw [vmul_apply]
              calc c i ^ (2 * ((degree - 1) / 2)) * (y i * c i)
                  = c i ^ (2 * ((degree - 1) / 2) + 1) * y i := by
                    rw [pow_succ]; ring
                _ = c i ^ degree * y i := by rw [hdeg]
      · have hdeg : degree = 1 := by omega
        subst hdeg
        cases yIsOne <;> simp [powGo, vmul_apply]

/-- Slot-wise correctness of `pow` for every degree `≥ 1`. -/
lemma powC_spec (c : SlotVec p n) (d : ℕ) (hd : 1 ≤ d) (i : Fin n) :
    powC c d i = c i ^ d := by
  have := powGo_spec (p := p) (n := n) d d hd (Nat.le_of_lt (Nat.lt_two_pow d))
    c vzero true i
  simpa [powC] using this

/-- The per-record equality mask (source lines 265-292): subtract the query
from the key, raise to the power `p - 1` with `pow`, negate, and add the
all-ones ciphertext.  Slot `i` is then 1 on a character match and 0 on a
mismatch. -/
def eqMask (key query : SlotVec p n) : SlotVec p n :=
  vadd (vneg (powC (vsub key query) (p - 1))) vones

/-- Slot-wise value of the equality mask under a prime plaintext modulus. -/
lemma eqMask_apply [Fact (Nat.Prime p)] (a b : SlotVec p n) (i : Fin n) :
    eqMask a b i = if a i = b i then 1 else 0 := by
  have hp2 : 2 ≤ p := (Fact.out : Nat.Prime p).two_le
  have h1 : 1 ≤ p - 1 := by omega
  simp only [eqMask, vadd, vneg, vones]
  rw [powC_spec _ _ h1]
  by_cases h : a i = b i
  · have hz : vsub a b i = 0 := by simp [vsub, h]
    rw [hz, zero_pow (by omega : p - 1 ≠ 0), if_pos h]
    ring
  · have hnz : vsub a b i ≠ 0 := by
      simp only [vsub]
      exact sub_ne_zero.mpr h
    rw [ZMod.pow_card_sub_one_eq_one hnz, if_neg h]
    ring

/-- The rotate-and-multiply loop of `run` (source lines 302-306), fuel-indexed
so that it is structurally recursive.  One round multiplies `res` by its copy
rotated left by `rot` and doubles `rot`; the loop runs while `rot < n`.
`fuel = n` suffices because `rot` doubles from 1 each round. -/
def reduceGo (p n : ℕ) : ℕ → SlotVec p n → ℕ → SlotVec p n
  | 0, res, _ => res
  | fuel + 1, res, rot =>
      if rot < n then reduceGo p n fuel (vmul res (rotLeft res rot)) (2 * rot) else res

/-- The all-slots AND reduction: the loop of source lines 302-306 started at
`rot = 1`. -/
def slotReduce (res : SlotVec p n) : SlotVec p n := reduceGo p n n res 1

lemma rotLeft_apply [NeZero n] (v : SlotVec p n) (r : ℕ) (i : Fin n) :
    rotLeft v r i = v (i + (r : Fin n)) := by
  simp only [rotLeft]
  congr 1
  apply Fin.ext
  simp only [Fin.add_def, Fin.val_natCast]
  conv_rhs => rw [Nat.add_mod, Nat.mod_mod_of_dvd _ dvd_rfl, ← Nat.add_mod]

/-- The cyclic window product of length `t` starting at slot `i`. -/
def windowProd [NeZero n] (v : SlotVec p n) (t : ℕ) (i : Fin n) : ZMod p :=
  ∏ j in Finset.range t, v (i + (j : Fin n))

lemma windowProd_double [NeZero n] (v : SlotVec p n) (t : ℕ) (i : Fin n) :
    windowProd v t i * windowProd v t (i + (t : Fin n)) = windowProd v (2 * t) i := by
  simp only [windowProd]
  rw [two_mul, Finset.prod_range_add]
  congr 1
  refine Finset.prod_congr rfl fun j _ => ?_
  congr 1
  rw [Nat.cast_add, add_assoc]

lemma windowProd_full [NeZero n] (v : SlotVec p n) (i : Fin n) :
    windowProd v n i = ∏ k, v k := by
  simp only [windowProd]
  rw [← Fin.prod_univ_eq_prod_range (fun j : ℕ => v (i + (j : Fin n))) n]
  calc (∏ k : Fin n, v (i + ((k : ℕ) : Fin n)))
      = ∏ k : Fin n, v (i + k) := by
        refine Finset.prod_congr rfl fun k _ => ?_
        rw [Fin.cast_val_eq_self]
    _ = ∏ k, v k := Fintype.prod_equiv (Equiv.addLeft i) _ _ fun k => rfl

/-- Loop invariant of the rotate-and-multiply reduction: starting from a state
holding cyclic window products of length `2 ^ k`, the loop ends holding the
product over all slots. -/
lemma reduceGo_spec [NeZero n] (m : ℕ) (hn : n = 2 ^ m) (v : SlotVec p n) :
    ∀ fuel k (res : SlotVec p n), k ≤ m → m - k ≤ fuel →
    (∀ i, res i = windowProd v (2 ^ k) i) →
    ∀ i, reduceGo p n fuel res (2 ^ k) i = ∏ j, v j := by
  intro fuel
  induction fuel with
  | zero =>
      intro k res hkm hfuel hres i
      have hk : k = m := by omega
      subst hk
      rw [reduceGo, hres i, ← hn, windowProd_full]
  | succ fuel ih =>
      intro k res hkm hfuel hres i
      rw [reduceGo]
      by_cases hlt : 2 ^ k < n
      · have hkm' : k < m := by
          by_contra hc
          have : k = m := by omega
          subst this
          omega
        rw [if_pos hlt]
        have hrot : 2 * 2 ^ k = 2 ^ (k + 1) := by ring
        rw [hrot]
        refine ih (k + 1) _ (by omega) (by omega) (fun i' => ?_) i
        rw [show (2:ℕ) ^ (k + 1) = 2 * 2 ^ k from by ring, ← windowProd_double]
        simp only [vmul, rotLeft_apply, hres]
      · have hge : n ≤ 2 ^ k := le_of_not_lt hlt
        have hmk : m ≤ k := by
          have h2 : (2:ℕ) ^ m ≤ 2 ^ k := hn ▸ hge
          exact (Nat.pow_le_pow_iff_right (by norm_num)).mp h2
        have hk : k = m := by omega
        subst hk
        rw [if_neg hlt, hres i, ← hn, windowProd_full]

/-- The reduction computes, in every slot, the product of all original
slots (for a power-of-two slot count). -/
lemma slotReduce_spec (m : ℕ) (hn : n = 2 ^ m) (v : SlotVec p n) (i : Fin n) :
    slotReduce v i = ∏ j, v j := by
  haveI : NeZero n := ⟨by subst hn; positivity⟩
  have hfuel : m ≤ n := by
    subst hn
    exact Nat.le_of_lt (Nat.lt_two_pow m)
  have hinit : ∀ i', v i' = windowProd v (2 ^ 0) i' := by
    intro i'
    simp [windowProd]
  have := reduceGo_spec m hn v n 0 v (Nat.zero_le m) (by omega) hinit i
  simpa [slotReduce] using this

/-- For 0/1 slots, the all-slot product is 1 iff every slot is 1. -/
lemma prod_eq_one_iff (v : SlotVec p n) (h01 : ∀ j, v j = 0 ∨ v j = 1) :
    (∏ j, v j) = 1 ↔ ∀ j, v j = 1 := by
  constructor
  · intro hprod j
    by_contra hne
    have hj0 : v j = 0 := (h01 j).resolve_right hne
    have hz : (∏ k, v k) = 0 := Finset.prod_eq_zero (Finset.mem_univ j) hj0
    exact hne (hj0.trans (hz.symm.trans hprod))
  · intro hall
    exact Finset.prod_eq_one fun j _ => hall j

/-- The per-record masked ciphertext (source lines 265-312): the all-slots
reduction of the equality mask, multiplied by the encrypted value
(`res.multiply(encrypted_pair.second)`). -/
def recordMask (key query value : SlotVec p n) : SlotVec p n :=
  vmul (slotReduce (eqMask key query)) value

lemma eqMask_zero_or_one [Fact (Nat.Prime p)] (a b : SlotVec p n) (i : Fin n) :
    eqMask a b i = 0 ∨ eqMask a b i = 1 := by
  rw [eqMask_apply]
  by_cases h : a i = b i
  · exact Or.inr (if_pos h)
  · exact Or.inl (if_neg h)

lemma recordMask_eq_value [Fact (Nat.Prime p)] (m : ℕ) (hn : n = 2 ^ m)
    (key query value : SlotVec p n) (h : key = query) :
    recordMask key query value = value := by
  funext i
  simp only [recordMask, vmul]
  rw [slotReduce_spec m hn]
  have hone : (∏ j, eqMask key query j) = 1 := by
    refine Finset.prod_eq_one fun j _ => ?_
    rw [eqMask_apply, if_pos (by rw [h])]
  rw [hone, one_mul]

lemma recordMask_eq_zero [Fact (Nat.Prime p)] (m : ℕ) (hn : n = 2 ^ m)
    (key query value : SlotVec p n) (h : key ≠ query) :
    recordMask key query value = vzero := by
  funext i
  simp only [recordMask, vmul, vzero]
  rw [slotReduce_spec m hn]
  obtain ⟨j, hj⟩ := Function.ne_iff.mp h
  have hzero : (∏ j', eqMask key query j') = 0 := by
    refine Finset.prod_eq_zero (Finset.mem_univ j) ?_
    rw [eqMask_apply, if_neg hj]
  rw [hzero, zero_mul]

/-- C2: for a prime plaintext modulus, the subtract / power `p-1` / negate /
add-ones pipeline produces the slot-wise equality indicator: 1 in every slot
where the operands agree mod `p`, 0 where they differ; in particular it is the
all-ones vector iff the operands are equal slot-wise. -/
theorem equality_mask_correct (p n : ℕ) [Fact (Nat.Prime p)] (a b : SlotVec p n) :
    (∀ i, eqMask a b i = if a i = b i then 1 else 0) ∧
    (eqMask a b = vones ↔ a = b) := by
  refine ⟨fun i => eqMask_apply a b i, ?_, ?_⟩
  · intro h
    funext i
    by_contra hne
    have h1 : eqMask a b i = 1 := by
      rw [h]; rfl
    rw [eqMask_apply, if_neg hne] at h1
    exact zero_ne_one h1
  · intro h
    funext i
    have : eqMask a b i = 1 := by
      rw [eqMask_apply, if_pos (by rw [h])]
    rw [this]; rfl

/-- C2 witness: at modulus 131, the mask of two vectors agreeing in slot 0
holds 1 there. -/
theorem equality_mask_correct_witness :
    Nat.Prime 131 ∧ eqMask (![1, 2] : SlotVec 131 2) ![1, 3] 0 = 1 := by
  have hp : Nat.Prime 131 := by norm_num
  haveI : Fact (Nat.Prime 131) := ⟨hp⟩
  refine ⟨hp, ?_⟩
  rw [(equality_mask_correct 131 2 ![1, 2] ![1, 3]).1 0]
  simp

/-- C3: for every degree ≥ 1, the square-and-multiply loop of `pow`
terminates and raises every slot of the ciphertext to that degree mod `p`. -/
theorem pow_correct (p n : ℕ) (c : SlotVec p n) (degree : ℕ) (hd : 1 ≤ degree)
    (i : Fin n) : powC c degree i = c i ^ degree :=
  powC_spec c degree hd i

/-- C3 witness: `pow` at degree 5 over modulus 7 maps slot value 3 to
`3 ^ 5 = 5 (mod 7)`. -/
theorem pow_correct_witness :
    1 ≤ 5 ∧ powC (![3, 2] : SlotVec 7 2) 5 0 = 5 :=
  ⟨by norm_num, (pow_correct 7 2 ![3, 2] 5 (by norm_num) 0).trans (by decide)⟩

/-- C4: for a power-of-two slot count and 0/1 slots, the rotate-and-multiply
loop leaves in every slot the product (logical AND) of all original slots:
the all-ones vector iff every slot was 1, else the all-zero vector. -/
theorem slot_reduction_correct (p n m : ℕ) (hn : n = 2 ^ m) (v : SlotVec p n)
    (h01 : ∀ j, v j = 0 ∨ v j = 1) :
    (∀ i, slotReduce v i = ∏ j, v j) ∧
    (slotReduce v = vones ↔ ∀ j, v j = 1) ∧
    ((∃ j, v j = 0) → slotReduce v = vzero) := by
  refine ⟨fun i => slotReduce_spec m hn v i, ⟨?_, ?_⟩, ?_⟩
  · intro h
    have hpos : 0 < n := by subst hn; positivity
    have h0 : slotReduce v ⟨0, hpos⟩ = 1 := by rw [h]; rfl
    rw [slotReduce_spec m hn] at h0
    exact (prod_eq_one_iff v h01).mp h0
  · intro hall
    funext i
    rw [slotReduce_spec m hn]
    exact Finset.prod_eq_one fun j _ => hall j
  · rintro ⟨j, hj⟩
    funext i
    rw [slotReduce_spec m hn]
    exact Finset.prod_eq_zero (Finset.mem_univ j) hj

/-- C4 witness: over 4 = 2² slots with one zero slot, the reduction yields
the all-zero vector. -/
theorem slot_reduction_correct_witness :
    4 = 2 ^ 2 ∧ slotReduce (![1, 1, 0, 1] : SlotVec 7 4) = vzero :=
  ⟨rfl, (slot_reduction_correct 7 4 2 rfl ![1, 1, 0, 1] (by decide)).2.2
    ⟨2, by decide⟩⟩

/-- C5: the per-record masked ciphertext (replicated all-match indicator
times the encrypted value) decodes to the value when the query equals the
key in every slot, and to the all-zero vector otherwise.  The selection in
`recordMask` is a pure arithmetic composition with no branching. -/
theorem record_masking_correct (p n m : ℕ) [Fact (Nat.Prime p)]
    (hn : n = 2 ^ m) (key query value : SlotVec p n) :
    (key = query → recordMask key query value = value) ∧
    (key ≠ query → recordMask key query value = vzero) :=
  ⟨recordMask_eq_value m hn key query value,
   recordMask_eq_zero m hn key query value⟩

/-- C5 witness: a matching key lets the value ciphertext through. -/
theorem record_masking_correct_witness :
    Nat.Prime 131 ∧
    recordMask (![65, 0] : SlotVec 131 2) ![65, 0] ![66, 0] = ![66, 0] := by
  have hp : Nat.Prime 131 := by norm_num
  haveI : Fact (Nat.Prime 131) := ⟨hp⟩
  exact ⟨hp, (record_masking_correct 131 2 1 rfl ![65, 0] ![65, 0] ![66, 0]).1 rfl⟩

/-- The only configuration check `main` performs before building the
database: `always_assert(plaintextModulus >= 127)` (source line 115).
`plaintextModulus` is a C++ `int`, embedded as `ℤ`. -/
def setupCheck (plaintextModulus : ℤ) : Bool := decide (127 ≤ plaintextModulus)

/-- C6: the setup check accepts the non-prime modulus 128 and the too-small
modulus 127, although the code's own comment ("we need it at least to be able
to handle the numbers 0...127") and the Fermat equality trick require a prime
modulus of at least 128.  This evaluates the code at both failing inputs. -/
theorem setup_check_bug :
    setupCheck 128 = true ∧ ¬ Nat.Prime 128 ∧
    setupCheck 127 = true ∧ (127 : ℤ) < 128 :=
  ⟨by decide, by norm_num, by decide, by norm_num⟩

/-- The `while (getline(ss, entry, ','))` splitting loop of `read_csv`
(source lines 368-371), on the remaining characters of a line. `cur` is the
reversed prefix of the field being read.  `getline` fails exactly when the
stream is at end-of-input, so a trailing delimiter does NOT produce a final
empty field. -/
def splitAux (cur : List Char) : List Char → List (List Char)
  | [] => [cur.reverse]
  | c :: cs =>
      if c = ',' then
        cur.reverse :: (match cs with
          | [] => []
          | _ :: _ => splitAux [] cs)
      else splitAux (c :: cur) cs

/-- Splitting one CSV line into its fields, as the `getline` loop of
`read_csv` does.  On an empty line the first `getline` fails immediately and
the row is empty. -/
def csvSplitCpp (line : String) : List String :=
  match line.data with
  | [] => []
  | c :: cs => (splitAux [] (c :: cs)).map fun f => String.mk f

/-- First field of a parsed row (`row[0]` in the source). -/
def rowKey (line : String) : String := ((csvSplitCpp line)[0]?).getD ""

/-- Second field of a parsed row (`row[1]` in the source). -/
def rowVal (line : String) : String := ((csvSplitCpp line)[1]?).getD ""

/-- The line-processing loop of `read_csv` (source lines 364-379) on the
list of lines of the file.  `row[0]`/`row[1]` are accessed without a bounds
check (`std::vector::operator[]`); an out-of-range access is undefined
behaviour, embedded as `none`.  A thrown `runtime_error` is
`some (Except.error msg)`; it aborts the whole load, so no later line is
processed. -/
def read_csv_go (maxLen : ℕ) : List String → Option (Except String (List (String × String)))
  | [] => some (Except.ok [])
  | line :: rest =>
      match (csvSplitCpp line)[0]? with
      | none => none
      | some k =>
          if maxLen < k.length then
            some (Except.error ("Country name " ++ k ++ " too long"))
          else
            match (csvSplitCpp line)[1]? with
            | none => none
            | some v =>
                if maxLen < v.length then
                  some (Except.error ("Capital name " ++ v ++ " too long"))
                else
                  match read_csv_go maxLen rest with
                  | some (Except.ok ds) => some (Except.ok ((k, v) :: ds))
                  | other => other

lemma splitAux_length_pos (l : List Char) (cur : List Char) :
    1 ≤ (splitAux cur l).length := by
  induction l generalizing cur with
  | nil => simp [splitAux]
  | cons c cs ih =>
      by_cases hc : c = ','
      · cases cs with
        | nil => simp [splitAux, hc]
        | cons c' cs' => simp [splitAux, hc]
      · simpa [splitAux, hc] using ih (c :: cur)

/-- A row has at least two fields iff the line contains a comma that is
followed by at least one further character. -/
lemma splitAux_two_iff (l : List Char) :
    ∀ cur, 2 ≤ (splitAux cur l).length ↔
      ∃ i, i + 1 < l.length ∧ l[i]? = some ',' := by
  induction l with
  | nil =>
      intro cur
      simp [splitAux]
  | cons c cs ih =>
      intro cur
      by_cases hc : c = ','
      · cases cs with
        | nil =>
            subst hc
            simp [splitAux]
        | cons c' cs' =>
            subst hc
            constructor
            · intro _
              exact ⟨0, by simp, by simp⟩
            · intro _
              have hpos := splitAux_length_pos (c' :: cs') []
              have hstep : splitAux cur (',' :: c' :: cs')
                  = cur.reverse :: splitAux [] (c' :: cs') := rfl
              rw [hstep, List.length_cons]
              omega
      · rw [show splitAux cur (c :: cs) = splitAux (c :: cur) cs from by
          simp [splitAux, hc]]
        rw [ih (c :: cur)]
        constructor
        · rintro ⟨i, hi, hget⟩
          exact ⟨i + 1, by simpa using hi, by simpa using hget⟩
        · rintro ⟨i, hi, hget⟩
          cases i with
          | zero =>
              exfalso
              apply hc
              have : some c = some ',' := by simpa using hget
              exact Option.some.inj this
          | succ i' =>
              exact ⟨i', by simpa using hi, by simpa using hget⟩

lemma csvSplit_two_iff (line : String) :
    2 ≤ (csvSplitCpp line).length ↔
      ∃ i, i + 1 < line.data.length ∧ line.data[i]? = some ',' := by
  rcases hd : line.data with _ | ⟨c, cs⟩
  · simp [csvSplitCpp, hd]
  · rw [csvSplitCpp, hd]
    simp only [List.length_map]
    exact splitAux_two_iff (c :: cs) []

/-- C10 counterexample: the line `"A,"` is non-empty and contains a comma,
yet the `getline` loop parses it into a single field, so the unchecked
`row[1]` access of `read_csv` is out of range on it. -/
theorem csv_row_access_counterexample :
    ("A," : String) ≠ "" ∧ (',' ∈ ("A," : String).data) ∧
    (csvSplitCpp "A,").length = 1 ∧ ((csvSplitCpp "A,")[1]?) = none ∧
    read_csv_go 32 ["A,"] = none := by
  refine ⟨by decide, by decide, by decide, by decide, ?_⟩
  rfl

/-- C10 (amended): `read_csv` accesses the first two fields of each row
without a bounds check; the `row[1]` access is in range iff the line
contains a comma followed by at least one further character (equivalently,
the `getline` splitting yields at least two fields).  Non-emptiness plus the
mere presence of a comma is not sufficient. -/
theorem csv_row_access_iff (line : String) :
    (((csvSplitCpp line)[1]?).isSome ↔
      ∃ i, i + 1 < line.data.length ∧ line.data[i]? = some ',') ∧
    (((csvSplitCpp line)[1]?).isSome ↔ 2 ≤ (csvSplitCpp line).length) := by
  have hlen : ((csvSplitCpp line)[1]?).isSome ↔ 2 ≤ (csvSplitCpp line).length := by
    constructor
    · intro h
      by_contra hlt
      rw [List.getElem?_eq_none (by omega)] at h
      simp at h
    · intro h
      rw [List.getElem?_eq_getElem (by omega : 1 < (csvSplitCpp line).length)]
      rfl
  exact ⟨hlen.trans (csvSplit_two_iff line), hlen⟩

lemma row0_some (line : String) (h : 2 ≤ (csvSplitCpp line).length) :
    (csvSplitCpp line)[0]? = some (rowKey line) := by
  rw [rowKey, List.getElem?_eq_getElem (by omega : 0 < (csvSplitCpp line).length)]
  rfl

lemma row1_some (line : String) (h : 2 ≤ (csvSplitCpp line).length) :
    (csvSplitCpp line)[1]? = some (rowVal line) := by
  rw [rowVal, List.getElem?_eq_getElem (by omega : 1 < (csvSplitCpp line).length)]
  rfl

/-- C7: on a file whose every line parses into at least two fields,
`read_csv` raises an error iff some line's key or value field exceeds
`maxLen`; when no field exceeds the bound it returns every (key, value)
pair in file order, and it never runs into the undefined out-of-range
access. -/
theorem read_csv_correct (maxLen : ℕ) (lines : List String)
    (hwf : ∀ l ∈ lines, 2 ≤ (csvSplitCpp l).length) :
    read_csv_go maxLen lines ≠ none ∧
    ((∃ e, read_csv_go maxLen lines = some (Except.error e)) ↔
      ∃ l ∈ lines, maxLen < (rowKey l).length ∨ maxLen < (rowVal l).length) ∧
    ((∀ l ∈ lines, (rowKey l).length ≤ maxLen ∧ (rowVal l).length ≤ maxLen) →
      read_csv_go maxLen lines =
        some (Except.ok (lines.map fun l => (rowKey l, rowVal l)))) := by
  induction lines with
  | nil =>
      refine ⟨by simp [read_csv_go], by simp [read_csv_go], ?_⟩
      intro _
      simp [read_csv_go]
  | cons line rest ih =>
      have hline := hwf line (List.mem_cons_self line rest)
      have hrest : ∀ l ∈ rest, 2 ≤ (csvSplitCpp l).length :=
        fun l hl => hwf l (List.mem_cons_of_mem line hl)
      obtain ⟨hnn, herr, hok⟩ := ih hrest
      have h0 := row0_some line hline
      have h1 := row1_some line hline
      by_cases hk : maxLen < (rowKey line).length
      · simp only [read_csv_go, h0, h1, if_pos hk]
        refine ⟨by simp, ?_, ?_⟩
        · exact iff_of_true ⟨_, rfl⟩
            ⟨line, List.mem_cons_self line rest, Or.inl hk⟩
        · intro hall
          have := (hall line (List.mem_cons_self line rest)).1
          omega
      · by_cases hv : maxLen < (rowVal line).length
        · simp only [read_csv_go, h0, h1, if_neg hk, if_pos hv]
          refine ⟨by simp, ?_, ?_⟩
          · exact iff_of_true ⟨_, rfl⟩
              ⟨line, List.mem_cons_self line rest, Or.inr hv⟩
          · intro hall
            have := (hall line (List.mem_cons_self line rest)).2
            omega
        · simp only [read_csv_go, h0, h1, if_neg hk, if_neg hv]
          rcases hr : read_csv_go maxLen rest with _ | r
          · exact absurd hr hnn
          · rcases r with e | ds
            · simp only [hr]
              refine ⟨by simp, ?_, ?_⟩
              · refine iff_of_true ⟨e, rfl⟩ ?_
                obtain ⟨l, hl, hor⟩ := herr.mp ⟨e, hr⟩
                exact ⟨l, List.mem_cons_of_mem _ hl, hor⟩
              · intro hall
                exfalso
                obtain ⟨l, hl, hor⟩ := herr.mp ⟨e, hr⟩
                have := hall l (List.mem_cons_of_mem _ hl)
                rcases hor with h | h <;> omega
            · simp only [hr]
              refine ⟨by simp, ?_, ?_⟩
              · apply iff_of_false
                · rintro ⟨e, he⟩
                  simp at he
                · rintro ⟨l, hl, hor⟩
                  rcases List.mem_cons.mp hl with rfl | hl'
                  · rcases hor with h | h <;> omega
                  · obtain ⟨e, he⟩ := herr.mpr ⟨l, hl', hor⟩
                    rw [hr] at he
                    simp at he
              · intro hall
                have hrestok := hok fun l hl => hall l (List.mem_cons_of_mem _ hl)
                rw [hr] at hrestok
                have hds : ds = rest.map fun l => (rowKey l, rowVal l) := by
                  simpa using hrestok
                subst hds
                simp

/-- C7 witness: a well-formed single-line file within the bound loads as its
(key, value) pair. -/
theorem read_csv_correct_witness :
    (∀ l ∈ ["ab,cd"], 2 ≤ (csvSplitCpp l).length) ∧
    read_csv_go 4 ["ab,cd"] = some (Except.ok [("ab", "cd")]) := by
  refine ⟨by decide, ?_⟩
  rw [(read_csv_correct 4 ["ab,cd"] (by decide)).2.2 (by decide)]
  rfl

/-- `stringToAscii` (source lines 388-396): the vector of character codes of
a string. -/
def stringToAscii (s : String) : List ℕ := s.data.map Char.toNat

/-- Modelled from the spec: `Encoder::encodeEncrypt` — encodes an integer
vector into a ciphertext, padding with zeros up to the slot count (spec
section 4.1: "pads/truncates to slot count, encrypts"). -/
def encodeEncrypt (p n : ℕ) (vals : List ℕ) : SlotVec p n :=
  fun i => ((vals.getD i.val 0 : ℕ) : ZMod p)

/-- Encoding of a string as done for keys, values and the query:
`enc.encodeEncrypt(ct, stringToAscii(s))` (source lines 220, 223, 253). -/
def asciiEncode (p n : ℕ) (s : String) : SlotVec p n :=
  encodeEncrypt p n (stringToAscii s)

/-- The search loop of `run` (source lines 265-316): one masked ciphertext
per database record, in database order. -/
def masksOf (p n : ℕ) (db : List (String × String)) (q : String) :
    List (SlotVec p n) :=
  db.map fun kv =>
    recordMask (asciiEncode p n kv.1) (asciiEncode p n q) (asciiEncode p n kv.2)

/-- The aggregation of `run` (source lines 322-324): `value = mask[0]`, then
`value.add(mask[i])` for the rest.  The source indexes `mask[0]`, so it
requires a non-empty database; the `[]` case below is unreachable under that
precondition. -/
def aggregateMasks (p n : ℕ) : List (SlotVec p n) → SlotVec p n
  | [] => vzero
  | m :: ms => ms.foldl vadd m

/-- Modelled from the spec: `enc.decryptDecodeInt(value)` (source line 329)
— the decoded slot values, as the canonical representatives in `[0, p)`
(spec section 4.1: values congruent to the computation mod p). -/
def decryptDecodeInt (c : SlotVec p n) : List ℕ := List.ofFn fun i => (c i).val

/-- The not-found message substituted at source lines 339-343 when the
leading decoded character is the zero sentinel. -/
def notFoundMsg : String :=
  "Country name not in the database.\n*** Please make sure to enter the name of an European Country\n*** with the first letter in upper case."

/-- The decoded aggregate the orchestrator reads back for a given database
and query. -/
def decodedLookup (p n : ℕ) (db : List (String × String)) (q : String) : List ℕ :=
  decryptDecodeInt (aggregateMasks p n (masksOf p n db q))

/-- The whole lookup of `run` (source lines 168-347): encode the query, mask
every record, aggregate, decrypt, turn each decoded slot into a character
(`string_result.push_back(...)`, lines 333-335), and substitute the
not-found message when the leading character is the zero sentinel
(`string_result.at(0) == 0x00`, line 339; `at(0)` presumes at least one
slot, and the claims only use `n = 2^m ≥ 1`). -/
def runLookup (p n : ℕ) (db : List (String × String)) (q : String) : String :=
  let s := String.mk ((decodedLookup p n db q).map Char.ofNat)
  if s.data.head? = some (Char.ofNat 0) then notFoundMsg else s

/-- Strings representable in the encrypted database: length at most the slot
count, and characters with nonzero 7-bit ASCII codes. -/
abbrev goodString (n : ℕ) (s : String) : Prop :=
  s.length ≤ n ∧ ∀ c ∈ s.data, 1 ≤ c.toNat ∧ c.toNat < 128

lemma string_length_data (s : String) : s.data.length = s.length := rfl

lemma char_toNat_injective (a b : Char) (h : a.toNat = b.toNat) : a = b := by
  have := congrArg Char.ofNat h
  rwa [Char.ofNat_toNat, Char.ofNat_toNat] at this

lemma string_data_injective (s t : String) (h : s.data = t.data) : s = t := by
  cases s
  cases t
  rw [show ({ data := _ } : String).data = _ from rfl] at h
  exact congrArg String.mk h

/-- The slot value of an encoded string: the character code below the string
length (for 7-bit codes and `p ≥ 128`), 0 above it. -/
lemma asciiEncode_val (hp : 128 ≤ p) (s : String)
    (hchars : ∀ c ∈ s.data, c.toNat < 128) (i : Fin n) :
    (asciiEncode p n s i).val = (stringToAscii s).getD i.val 0 := by
  haveI : NeZero p := ⟨by omega⟩
  by_cases hi : i.val < s.length
  · have hi' : i.val < (stringToAscii s).length := by
      simpa [stringToAscii, string_length_data] using hi
    have hd : i.val < s.data.length := by simpa [string_length_data] using hi
    rw [asciiEncode, encodeEncrypt, List.getD_eq_getElem _ 0 hi']
    have hlt : (stringToAscii s)[i.val] < 128 := by
      simp only [stringToAscii, List.getElem_map]
      exact hchars _ (List.getElem_mem hd)
    exact ZMod.val_cast_of_lt (lt_of_lt_of_le hlt hp)
  · have hi' : (stringToAscii s).length ≤ i.val := by
      simpa [stringToAscii, string_length_data] using le_of_not_lt hi
    rw [asciiEncode, encodeEncrypt, List.getD_eq_default _ 0 hi', Nat.cast_zero]
    exact ZMod.val_zero

/-- Encoding is injective on representable strings: distinct strings get
distinct slot vectors. -/
lemma asciiEncode_inj (hp : 128 ≤ p) {s t : String}
    (hs : goodString n s) (ht : goodString n t)
    (h : asciiEncode p n s = asciiEncode p n t) : s = t := by
  have hsv := fun i => congrArg ZMod.val (congrFun h i)
  have hs' : ∀ c ∈ s.data, c.toNat < 128 := fun c hc => (hs.2 c hc).2
  have ht' : ∀ c ∈ t.data, c.toNat < 128 := fun c hc => (ht.2 c hc).2
  have hval : ∀ i : Fin n,
      (stringToAscii s).getD i.val 0 = (stringToAscii t).getD i.val 0 := by
    intro i
    rw [← asciiEncode_val hp s hs' i, ← asciiEncode_val hp t ht' i]
    exact hsv i
  have hcode_pos_s : ∀ j (hj : j < s.length),
      1 ≤ (stringToAscii s).getD j 0 := by
    intro j hj
    have hj' : j < (stringToAscii s).length := by
      simpa [stringToAscii, string_length_data] using hj
    rw [List.getD_eq_getElem _ 0 hj']
    simp only [stringToAscii, List.getElem_map]
    exact (hs.2 _ (List.getElem_mem _)).1
  have hcode_pos_t : ∀ j (hj : j < t.length),
      1 ≤ (stringToAscii t).getD j 0 := by
    intro j hj
    have hj' : j < (stringToAscii t).length := by
      simpa [stringToAscii, string_length_data] using hj
    rw [List.getD_eq_getElem _ 0 hj']
    simp only [stringToAscii, List.getElem_map]
    exact (ht.2 _ (List.getElem_mem _)).1
  have hlens : s.length = t.length := by
    by_contra hne
    rcases Nat.lt_or_ge s.length t.length with hlt | hge
    · have hi : s.length < n := lt_of_lt_of_le hlt ht.1
      have hv : (stringToAscii s).getD s.length 0 = (stringToAscii t).getD s.length 0 :=
        hval ⟨s.length, hi⟩
      have hzero : (stringToAscii s).getD s.length 0 = 0 :=
        List.getD_eq_default _ 0 (by simp [stringToAscii, string_length_data])
      have hpos := hcode_pos_t s.length hlt
      omega
    · have hgt : t.length < s.length := by omega
      have hi : t.length < n := lt_of_lt_of_le hgt hs.1
      have hv : (stringToAscii s).getD t.length 0 = (stringToAscii t).getD t.length 0 :=
        hval ⟨t.length, hi⟩
      have hzero : (stringToAscii t).getD t.length 0 = 0 :=
        List.getD_eq_default _ 0 (by simp [stringToAscii, string_length_data])
      have hpos := hcode_pos_s t.length hgt
      omega
  apply string_data_injective
  apply List.ext_getElem (by rw [string_length_data, string_length_data, hlens])
  intro j hj1 hj2
  have hjn : j < n := lt_of_lt_of_le (by simpa [string_length_data] using hj1) hs.1
  have hvj : (stringToAscii s).getD j 0 = (stringToAscii t).getD j 0 := hval ⟨j, hjn⟩
  rw [List.getD_eq_getElem _ 0
        (by simpa [stringToAscii, string_length_data] using hj1),
      List.getD_eq_getElem _ 0
        (by simpa [stringToAscii, string_length_data] using hj2)] at hvj
  simp only [stringToAscii, List.getElem_map] at hvj
  exact char_toNat_injective _ _ hvj

lemma vadd_eq_add (a b : SlotVec p n) : vadd a b = a + b := rfl

lemma vzero_eq_zero : (vzero : SlotVec p n) = 0 := rfl

lemma foldl_vadd (l : List (SlotVec p n)) :
    ∀ acc, l.foldl vadd acc = acc + l.sum := by
  induction l with
  | nil =>
      intro acc
      simp
  | cons x xs ih =>
      intro acc
      rw [List.foldl_cons, ih, List.sum_cons, vadd_eq_add, add_assoc]

lemma aggregateMasks_eq_sum (ms : List (SlotVec p n)) :
    aggregateMasks p n ms = ms.sum := by
  cases ms with
  | nil => rfl
  | cons m ms' => rw [aggregateMasks, foldl_vadd, List.sum_cons]

/-- Decoding the encoding of a representable string recovers its character
codes, padded with zeros to the slot count. -/
lemma decrypt_asciiEncode (hp : 128 ≤ p) (v : String) (hlen : v.length ≤ n)
    (hchars : ∀ c ∈ v.data, c.toNat < 128) :
    decryptDecodeInt (asciiEncode p n v) =
      v.data.map Char.toNat ++ List.replicate (n - v.length) 0 := by
  apply List.ext_getElem
  · simp [decryptDecodeInt, string_length_data]
    omega
  · intro j hj1 hj2
    have hjn : j < n := by simpa [decryptDecodeInt] using hj1
    rw [show (decryptDecodeInt (asciiEncode p n v))[j]
          = (asciiEncode p n v ⟨j, hjn⟩).val from List.getElem_ofFn _ j hj1]
    rw [asciiEncode_val hp v hchars ⟨j, hjn⟩]
    by_cases hjv : j < v.length
    · rw [List.getD_eq_getElem _ 0 (by simpa [stringToAscii, string_length_data] using hjv),
          List.getElem_append_left (by simpa [string_length_data] using hjv)]
      simp [stringToAscii]
    · rw [List.getD_eq_default _ 0 (by simpa [stringToAscii, string_length_data] using le_of_not_lt hjv),
          List.getElem_append_right (by simpa [string_length_data] using le_of_not_lt hjv)]
      simp

lemma decrypt_vzero (hp : 0 < p) :
    decryptDecodeInt (vzero : SlotVec p n) = List.replicate n 0 := by
  haveI : NeZero p := ⟨by omega⟩
  rw [decryptDecodeInt]
  calc List.ofFn (fun i : Fin n => (vzero i).val)
      = List.ofFn (fun _ : Fin n => 0) := by
        refine congrArg _ (funext fun i => ?_)
        simp [vzero]
    _ = List.replicate n 0 := List.ofFn_const n 0

lemma runLookup_head (p n : ℕ) (db : List (String × String)) (q : String) :
    runLookup p n db q =
      if ((decodedLookup p n db q).map Char.ofNat).head? = some (Char.ofNat 0)
      then notFoundMsg
      else String.mk ((decodedLookup p n db q).map Char.ofNat) := rfl

lemma head_replicate_zero (k : ℕ) (hpos : 0 < k) :
    ((List.replicate k (0:ℕ)).map Char.ofNat).head? = some (Char.ofNat 0) := by
  cases k with
  | zero => omega
  | succ k' => rfl

lemma runLookup_notFound (hpos : 0 < n) (db : List (String × String)) (q : String)
    (hdec : decodedLookup p n db q = List.replicate n 0) :
    runLookup p n db q = notFoundMsg := by
  rw [runLookup_head, hdec, if_pos (head_replicate_zero n hpos)]

lemma run_of_decoded_value (db : List (String × String)) (q : String)
    (v : String) (hv : v ≠ "") (hvgood : ∀ c ∈ v.data, 1 ≤ c.toNat)
    (hdec : decodedLookup p n db q =
      v.data.map Char.toNat ++ List.replicate (n - v.length) 0) :
    runLookup p n db q =
      String.mk (v.data ++ List.replicate (n - v.length) (Char.ofNat 0)) := by
  have hmap : (v.data.map Char.toNat ++ List.replicate (n - v.length) 0).map Char.ofNat
      = v.data ++ List.replicate (n - v.length) (Char.ofNat 0) := by
    rw [List.map_append, List.map_map, List.map_replicate]
    congr 1
    rw [show (Char.ofNat ∘ Char.toNat) = id from funext fun c => Char.ofNat_toNat c]
    exact List.map_id v.data
  rw [runLookup_head, hdec, hmap]
  have hcond : (v.data ++ List.replicate (n - v.length) (Char.ofNat 0)).head?
      ≠ some (Char.ofNat 0) := by
    rcases hvd : v.data with _ | ⟨c, cs⟩
    · exact absurd (string_data_injective v "" hvd) hv
    · rw [List.cons_append, List.head?_cons]
      have hc1 : 1 ≤ c.toNat := hvgood c (by rw [hvd]; exact List.mem_cons_self c cs)
      have hcne : c ≠ Char.ofNat 0 := by
        intro he
        rw [he] at hc1
        have hz : (Char.ofNat 0).toNat = 0 := rfl
        omega
      simpa using hcne
  rw [if_neg hcond]

/-- C1 (amended): for a non-empty database of representable strings with at
most one key equal to the query, the lookup decodes the aggregate to the
matching record's value codes padded with zeros and returns that value
padded with NUL characters to the slot count — provided the value is
non-empty; when no key matches (or the matching value is empty, so the
leading decoded slot is the zero sentinel) the aggregate decodes to all
zeros and the not-found message is returned instead of a garbled string. -/
theorem lookup_correct (p n m : ℕ) [Fact (Nat.Prime p)] (hp : 128 ≤ p)
    (hn : n = 2 ^ m) (db : List (String × String)) (q : String)
    (hne : db ≠ [])
    (hgood : ∀ kv ∈ db, goodString n kv.1 ∧ goodString n kv.2)
    (hq : goodString n q)
    (huniq : (db.filter fun kv => kv.1 == q).length ≤ 1) :
    ((∀ kv ∈ db, kv.1 ≠ q) →
      decodedLookup p n db q = List.replicate n 0 ∧
      runLookup p n db q = notFoundMsg) ∧
    (∀ kv ∈ db, kv.1 = q →
      decodedLookup p n db q =
        kv.2.data.map Char.toNat ++ List.replicate (n - kv.2.length) 0 ∧
      (kv.2 ≠ "" →
        runLookup p n db q =
          String.mk (kv.2.data ++ List.replicate (n - kv.2.length) (Char.ofNat 0))) ∧
      (kv.2 = "" → runLookup p n db q = notFoundMsg)) := by
  have hnpos : 0 < n := by subst hn; positivity
  have hppos : 0 < p := by omega
  have hmask_zero : ∀ kv ∈ db, kv.1 ≠ q →
      recordMask (asciiEncode p n kv.1) (asciiEncode p n q) (asciiEncode p n kv.2)
        = vzero := by
    intro kv hkv hneq
    refine recordMask_eq_zero m hn _ _ _ fun he => ?_
    exact hneq (asciiEncode_inj hp (hgood kv hkv).1 hq he)
  constructor
  · intro hnomatch
    have hall0 : ∀ x ∈ masksOf p n db q, x = 0 := by
      intro x hx
      obtain ⟨kv, hkv, rfl⟩ := List.mem_map.mp hx
      rw [hmask_zero kv hkv (hnomatch kv hkv), vzero_eq_zero]
    have hdec : decodedLookup p n db q = List.replicate n 0 := by
      rw [decodedLookup, aggregateMasks_eq_sum, List.sum_eq_zero hall0,
        ← vzero_eq_zero, decrypt_vzero hppos]
    exact ⟨hdec, runLookup_notFound hnpos db q hdec⟩
  · intro kv hkv hkvq
    obtain ⟨l₁, l₂, hsplit⟩ := List.append_of_mem hkv
    have hkvbeq : (kv.1 == q) = true := beq_iff_eq.mpr hkvq
    have hfilter := huniq
    rw [hsplit, List.filter_append, List.filter_cons, if_pos hkvbeq,
      List.length_append, List.length_cons] at hfilter
    have hf1 : (l₁.filter fun x => x.1 == q) = [] :=
      List.eq_nil_of_length_eq_zero (by omega)
    have hf2 : (l₂.filter fun x => x.1 == q) = [] :=
      List.eq_nil_of_length_eq_zero (by omega)
    have hno1 : ∀ x ∈ l₁, x.1 ≠ q := by
      intro x hx hxq
      exact absurd (List.filter_eq_nil_iff.mp hf1 x hx) (by simpa using hxq)
    have hno2 : ∀ x ∈ l₂, x.1 ≠ q := by
      intro x hx hxq
      exact absurd (List.filter_eq_nil_iff.mp hf2 x hx) (by simpa using hxq)
    have hmem1 : ∀ x ∈ l₁, x ∈ db := fun x hx => by
      rw [hsplit]; exact List.mem_append_left _ hx
    have hmem2 : ∀ x ∈ l₂, x ∈ db := fun x hx => by
      rw [hsplit]
      exact List.mem_append_right _ (List.mem_cons_of_mem _ hx)
    have hsum1 : (masksOf p n l₁ q).sum = 0 := by
      refine List.sum_eq_zero fun x hx => ?_
      obtain ⟨x', hx', rfl⟩ := List.mem_map.mp hx
      rw [hmask_zero x' (hmem1 x' hx') (hno1 x' hx'), vzero_eq_zero]
    have hsum2 : (masksOf p n l₂ q).sum = 0 := by
      refine List.sum_eq_zero fun x hx => ?_
      obtain ⟨x', hx', rfl⟩ := List.mem_map.mp hx
      rw [hmask_zero x' (hmem2 x' hx') (hno2 x' hx'), vzero_eq_zero]
    have hmatch : recordMask (asciiEncode p n kv.1) (asciiEncode p n q)
        (asciiEncode p n kv.2) = asciiEncode p n kv.2 :=
      recordMask_eq_value m hn _ _ _ (by rw [hkvq])
    have hagg : aggregateMasks p n (masksOf p n db q) = asciiEncode p n kv.2 := by
      rw [hsplit, masksOf, List.map_append, List.map_cons, aggregateMasks_eq_sum,
        List.sum_append, List.sum_cons]
      rw [show (l₁.map fun x => recordMask (asciiEncode p n x.1)
            (asciiEncode p n q) (asciiEncode p n x.2)) = masksOf p n l₁ q from rfl,
          show (l₂.map fun x => recordMask (asciiEncode p n x.1)
            (asciiEncode p n q) (asciiEncode p n x.2)) = masksOf p n l₂ q from rfl,
          hsum1, hsum2, hmatch]
      simp
    have hvgood := (hgood kv hkv).2
    have hdec : decodedLookup p n db q =
        kv.2.data.map Char.toNat ++ List.replicate (n - kv.2.length) 0 := by
      rw [decodedLookup, hagg,
        decrypt_asciiEncode hp kv.2 hvgood.1 fun c hc => (hvgood.2 c hc).2]
    refine ⟨hdec, ?_, ?_⟩
    · intro hv
      exact run_of_decoded_value db q kv.2 hv (fun c hc => (hvgood.2 c hc).1) hdec
    · intro hv
      have hdec' : decodedLookup p n db q = List.replicate n 0 := by
        rw [hdec, hv]
        simp
      exact runLookup_notFound hnpos db q hdec'

set_option maxRecDepth 10000 in
/-- C1 counterexample: with the single record `("A", "")` the query `"A"`
matches exactly one key, yet the lookup returns the not-found message
instead of the record's (empty) value, because the empty value encodes to
the all-zero vector whose leading slot is the zero sentinel. -/
theorem lookup_counterexample :
    runLookup 131 2 [("A", "")] "A" = notFoundMsg ∧
    notFoundMsg ≠ "" ∧
    notFoundMsg ≠ String.mk [Char.ofNat 0, Char.ofNat 0] := by
  refine ⟨by decide, by decide, by decide⟩

set_option maxRecDepth 10000 in
/-- C1 witness: a one-record database with a non-empty value; the query
matching its key returns the value padded with NUL to the slot count. -/
theorem lookup_correct_witness :
    Nat.Prime 131 ∧ (2:ℕ) = 2 ^ 1 ∧ ([("A", "B")] : List (String × String)) ≠ [] ∧
    runLookup 131 2 [("A", "B")] "A" = String.mk ['B', Char.ofNat 0] := by
  have hp : Nat.Prime 131 := by norm_num
  haveI : Fact (Nat.Prime 131) := ⟨hp⟩
  refine ⟨hp, rfl, by decide, ?_⟩
  have h := ((lookup_correct 131 2 1 (by norm_num) rfl [("A", "B")] "A"
    (by decide) (by decide) (by decide) (by decide)).2
    ("A", "B") (by decide) rfl).2.1 (by decide)
  rw [h]
  decide

/-- A ciphertext together with its hidden randomness: the decoded payload
plus an opaque tag standing for the encryption randomness / noise state. -/
def CtTag (p n : ℕ) : Type := SlotVec p n × ℕ

/-- Modelled from the spec: how the opaque randomness component evolves
under each homomorphic operation is left entirely unspecified by the
capability contract (spec section 4.1 only fixes the decoded payload); a
`TagSem` is an arbitrary choice of that evolution. -/
structure TagSem where
  addT : ℕ → ℕ → ℕ
  subT : ℕ → ℕ → ℕ
  mulT : ℕ → ℕ → ℕ
  negT : ℕ → ℕ
  squareT : ℕ → ℕ
  rotT : ℕ → ℕ

def tadd (ts : TagSem) (a b : CtTag p n) : CtTag p n :=
  (vadd a.1 b.1, ts.addT a.2 b.2)

def tsub (ts : TagSem) (a b : CtTag p n) : CtTag p n :=
  (vsub a.1 b.1, ts.subT a.2 b.2)

def tmul (ts : TagSem) (a b : CtTag p n) : CtTag p n :=
  (vmul a.1 b.1, ts.mulT a.2 b.2)

def tneg (ts : TagSem) (a : CtTag p n) : CtTag p n :=
  (vneg a.1, ts.negT a.2)

def tsquare (ts : TagSem) (a : CtTag p n) : CtTag p n :=
  (vsquare a.1, ts.squareT a.2)

def trot (ts : TagSem) (a : CtTag p n) (r : ℕ) : CtTag p n :=
  (rotLeft a.1 r, ts.rotT a.2)

/-- An encryption call: the payload is the encoded vector, the tag is the
fresh randomness drawn for this call. -/
def tencrypt (p n : ℕ) (vals : List ℕ) (tag : ℕ) : CtTag p n :=
  (encodeEncrypt p n vals, tag)

/-- Decryption reads only the payload. -/
def tdecrypt (c : CtTag p n) : List ℕ := decryptDecodeInt c.1

/-- `pow` over tagged ciphertexts (same loop as `powGo`). -/
def tpowGo (ts : TagSem) (p n : ℕ) : ℕ → CtTag p n → CtTag p n → Bool → ℕ → CtTag p n
  | 0, ctile, y, yIsOne, _ =>
      if yIsOne then ctile else tmul ts ctile y
  | fuel + 1, ctile, y, yIsOne, degree =>
      if 1 < degree then
        if degree % 2 = 0 then
          tpowGo ts p n fuel (tsquare ts ctile) y yIsOne (degree / 2)
        else
          tpowGo ts p n fuel (tsquare ts ctile)
            (if yIsOne then ctile else tmul ts y ctile) false ((degree - 1) / 2)
      else
        if yIsOne then ctile else tmul ts ctile y

def tpow (ts : TagSem) (ctile : CtTag p n) (degree : ℕ) (ytag : ℕ) : CtTag p n :=
  tpowGo ts p n degree ctile (vzero, ytag) true degree

/-- The equality-mask computation over tagged ciphertexts, including the
per-record encryption of the all-ones vector (source line 291). -/
def teqMask (ts : TagSem) (key query : CtTag p n) (ytag onetag : ℕ) : CtTag p n :=
  tadd ts (tneg ts (tpow ts (tsub ts key query) (p - 1) ytag))
    (tencrypt p n (List.replicate n 1) onetag)

def treduceGo (ts : TagSem) (p n : ℕ) : ℕ → CtTag p n → ℕ → CtTag p n
  | 0, res, _ => res
  | fuel + 1, res, rot =>
      if rot < n then treduceGo ts p n fuel (tmul ts res (trot ts res rot)) (2 * rot)
      else res

def tslotReduce (ts : TagSem) (res : CtTag p n) : CtTag p n :=
  treduceGo ts p n n res 1

def trecordMask (ts : TagSem) (key query value : CtTag p n) (ytag onetag : ℕ) :
    CtTag p n :=
  tmul ts (tslotReduce ts (teqMask ts key query ytag onetag)) value

/-- The per-record loop over tagged ciphertexts; `kt`, `vt`, `ot`, `yt` give
the fresh randomness for the key, value and all-ones encryptions and the
fresh `CTile y` of record number `i`. -/
def tmasksOf (ts : TagSem) (p n : ℕ) (db : List (String × String)) (q : CtTag p n)
    (kt vt ot yt : ℕ → ℕ) : List (CtTag p n) :=
  db.enum.map fun iz =>
    trecordMask ts (tencrypt p n (stringToAscii iz.2.1) (kt iz.1)) q
      (tencrypt p n (stringToAscii iz.2.2) (vt iz.1)) (yt iz.1) (ot iz.1)

def taggregateMasks (ts : TagSem) (p n : ℕ) : List (CtTag p n) → CtTag p n
  | [] => (vzero, 0)
  | m :: ms => ms.foldl (tadd ts) m

/-- The whole lookup over tagged ciphertexts: `qt` is the randomness of the
query encryption. -/
def trunLookup (ts : TagSem) (p n : ℕ) (db : List (String × String)) (q : String)
    (qt : ℕ) (kt vt ot yt : ℕ → ℕ) : String :=
  let query := tencrypt p n (stringToAscii q) qt
  let res := tdecrypt (taggregateMasks ts p n (tmasksOf ts p n db query kt vt ot yt))
  let s := String.mk (res.map Char.ofNat)
  if s.data.head? = some (Char.ofNat 0) then notFoundMsg else s

lemma tpowGo_fst (ts : TagSem) :
    ∀ fuel (c y : CtTag p n) (b : Bool) (d : ℕ),
      (tpowGo ts p n fuel c y b d).1 = powGo p n fuel c.1 y.1 b d := by
  intro fuel
  induction fuel with
  | zero =>
      intro c y b d
      cases b <;> rfl
  | succ fuel ih =>
      intro c y b d
      by_cases h1 : 1 < d
      · by_cases h2 : d % 2 = 0
        · rw [tpowGo, powGo, if_pos h1, if_pos h1, if_pos h2, if_pos h2]
          exact ih (tsquare ts c) y b (d / 2)
        · rw [tpowGo, powGo, if_pos h1, if_pos h1, if_neg h2, if_neg h2]
          cases b with
          | true =>
              exact ih (tsquare ts c) c false ((d - 1) / 2)
          | false =>
              exact ih (tsquare ts c) (tmul ts y c) false ((d - 1) / 2)
      · rw [tpowGo, powGo, if_neg h1, if_neg h1]
        cases b <;> rfl

lemma tpow_fst (ts : TagSem) (c : CtTag p n) (d ytag : ℕ) :
    (tpow ts c d ytag).1 = powC c.1 d :=
  tpowGo_fst ts d c (vzero, ytag) true d

lemma encode_ones :
    encodeEncrypt p n (List.replicate n 1) = (vones : SlotVec p n) := by
  funext i
  show ((List.replicate n 1).getD i.val 0 : ℕ) = (vones i : ZMod p)
  rw [List.getD_eq_getElem _ _ (by simp : i.val < (List.replicate n (1:ℕ)).length)]
  simp [vones]

lemma teqMask_fst (ts : TagSem) (k q : CtTag p n) (yt ot : ℕ) :
    (teqMask ts k q yt ot).1 = eqMask k.1 q.1 := by
  show vadd (vneg (tpow ts (tsub ts k q) (p - 1) yt).1)
      (encodeEncrypt p n (List.replicate n 1)) = eqMask k.1 q.1
  rw [tpow_fst, encode_ones]
  rfl

lemma treduceGo_fst (ts : TagSem) :
    ∀ fuel (res : CtTag p n) (rot : ℕ),
      (treduceGo ts p n fuel res rot).1 = reduceGo p n fuel res.1 rot := by
  intro fuel
  induction fuel with
  | zero => intro res rot; rfl
  | succ fuel ih =>
      intro res rot
      by_cases h : rot < n
      · rw [treduceGo, reduceGo, if_pos h, if_pos h]
        exact ih (tmul ts res (trot ts res rot)) (2 * rot)
      · rw [treduceGo, reduceGo, if_neg h, if_neg h]

lemma trecordMask_fst (ts : TagSem) (k q v : CtTag p n) (yt ot : ℕ) :
    (trecordMask ts k q v yt ot).1 = recordMask k.1 q.1 v.1 := by
  show vmul (tslotReduce ts (teqMask ts k q yt ot)).1 v.1 = _
  rw [tslotReduce, recordMask, slotReduce, treduceGo_fst, teqMask_fst]

lemma tfoldl_fst (ts : TagSem) (l : List (CtTag p n)) :
    ∀ acc : CtTag p n, (l.foldl (tadd ts) acc).1 = (l.map Prod.fst).foldl vadd acc.1 := by
  induction l with
  | nil => intro acc; rfl
  | cons x xs ih =>
      intro acc
      rw [List.foldl_cons, List.map_cons, List.foldl_cons, ih]
      rfl

lemma taggregate_fst (ts : TagSem) (ms : List (CtTag p n)) :
    (taggregateMasks ts p n ms).1 = aggregateMasks p n (ms.map Prod.fst) := by
  cases ms with
  | nil => rfl
  | cons m ms' =>
      rw [taggregateMasks, List.map_cons, aggregateMasks, tfoldl_fst]

lemma tmasksOf_fst (ts : TagSem) (db : List (String × String)) (q : String)
    (qt : ℕ) (kt vt ot yt : ℕ → ℕ) :
    (tmasksOf ts p n db (tencrypt p n (stringToAscii q) qt) kt vt ot yt).map Prod.fst
      = masksOf p n db q := by
  rw [tmasksOf, List.map_map]
  have hfun : (Prod.fst ∘ fun iz : ℕ × String × String =>
      trecordMask ts (tencrypt p n (stringToAscii iz.2.1) (kt iz.1))
        (tencrypt p n (stringToAscii q) qt)
        (tencrypt p n (stringToAscii iz.2.2) (vt iz.1)) (yt iz.1) (ot iz.1))
      = (fun kv : String × String => recordMask (asciiEncode p n kv.1)
          (asciiEncode p n q) (asciiEncode p n kv.2)) ∘ Prod.snd := by
    funext iz
    exact trecordMask_fst ts _ _ _ _ _
  rw [hfun, ← List.map_map, List.enum_map_snd, masksOf]

lemma trunLookup_eq (ts : TagSem) (p n : ℕ) (db : List (String × String))
    (q : String) (qt : ℕ) (kt vt ot yt : ℕ → ℕ) :
    trunLookup ts p n db q qt kt vt ot yt = runLookup p n db q := by
  have hdec : tdecrypt (taggregateMasks ts p n
      (tmasksOf ts p n db (tencrypt p n (stringToAscii q) qt) kt vt ot yt))
      = decodedLookup p n db q := by
    rw [tdecrypt, decodedLookup, taggregate_fst, tmasksOf_fst]
  show (if (String.mk ((tdecrypt (taggregateMasks ts p n
      (tmasksOf ts p n db (tencrypt p n (stringToAscii q) qt) kt vt ot yt))).map
        Char.ofNat)).data.head? = some (Char.ofNat 0)
    then notFoundMsg
    else String.mk ((tdecrypt (taggregateMasks ts p n
      (tmasksOf ts p n db (tencrypt p n (stringToAscii q) qt) kt vt ot yt))).map
        Char.ofNat)) = runLookup p n db q
  rw [hdec]
  rfl

/-- C9: the decoded lookup result is a deterministic function of the query
and the database contents: two runs with entirely different encryption
randomness (the opaque tag streams) and different tag evolutions decode to
the identical string. -/
theorem lookup_deterministic (p n : ℕ) (db : List (String × String)) (q : String)
    (ts ts' : TagSem) (qt qt' : ℕ) (kt vt ot yt kt' vt' ot' yt' : ℕ → ℕ) :
    trunLookup ts p n db q qt kt vt ot yt
      = trunLookup ts' p n db q qt' kt' vt' ot' yt' :=
  (trunLookup_eq ts p n db q qt kt vt ot yt).trans
    (trunLookup_eq ts' p n db q qt' kt' vt' ot' yt').symm

end CountryLookup
